import Mathlib

/-!
Verification of the rule-execution engine of the liferay npm bundler
(`packages/liferay-npm-bundler/src/steps/rules.js`).

The JavaScript source is shallowly embedded: promises are modelled by
settled outcomes (a loader invocation either returns a settled value,
throws synchronously, or returns a deferred result that rejects), the
file system by explicit lists of write operations, and JS values that
may be a string, `null` or `undefined` by an inductive type.  POSIX
path strings are kept as strings with `/` as separator (`path.sep`),
and the path helpers model the nominal case used by the engine: the
bundler runs with the project directory as working directory, so
`path.relative` first resolves its relative base against the project
directory and the resolved target then lies under the resolved base.
-/

/-- A JS value as it flows through the loader pipeline: a string, `null`,
or `undefined`.  The engine distinguishes `content !== undefined`
(strict, `null` passes) from `content == undefined` (loose, `null` is
equated with `undefined`). -/
inductive JsValue where
  | undef
  | null
  | str (s : String)
deriving DecidableEq, Repr

/-- JS loose equality against `undefined` (`x == undefined`), true exactly
for `undefined` and `null`. -/
def JsValue.looseUndef : JsValue → Bool
  | .undef => true
  | .null => true
  | .str _ => false

/-- The per-file context threaded through the pipeline (`content`,
`filePath`, `extraArtifacts`, `log`).  `extraArtifacts` is an assoc
list in insertion order (JS object with string keys); `log` is the
append-only list of `(sourceTag, message)` entries of the
`PluginLogger`. -/
structure FileContext where
  content : JsValue
  filePath : String
  extraArtifacts : List (String × JsValue)
  log : List (String × String)
deriving DecidableEq, Repr

/-- The settled outcome of invoking `loader.exec(context, options)`:
a synchronous throw, a normal (possibly deferred) value, or a deferred
result that rejects.  In the last two cases the loader may have mutated
the context (its own mutations are part of the outcome). -/
inductive ExecResult where
  | throws (ctx : FileContext) (msg : String)
  | ok (ctx : FileContext) (ret : JsValue)
  | rejects (ctx : FileContext) (msg : String)
deriving DecidableEq

/-- A loader descriptor: its `use` identifier and its `exec` transform
(the `options` payload is folded into `exec`). -/
structure Loader where
  use : String
  exec : FileContext → ExecResult

/-- The settled outcome of `runLoaders`: the promise either resolves with
the final `content` (the caller also sees the mutated context) or
rejects with an error message. -/
inductive RunResult where
  | resolved (content : JsValue) (ctx : FileContext)
  | rejected (msg : String) (ctx : FileContext)
deriving DecidableEq

/-- `runLoaders(loaders, i, context)` of `rules.js`, embedded as recursion
over the remaining loaders.  A synchronous throw is re-thrown with the
message prefixed by the failing loader's `use`; a rejected deferred
result propagates unchanged; a settled return value other than
`undefined` replaces `content` (`Object.assign(context, {content})`). -/
def runLoaders : List Loader → FileContext → RunResult
  | [], ctx => .resolved ctx.content ctx
  | l :: rest, ctx =>
    match l.exec ctx with
    | .throws ctx' msg =>
        .rejected ("Loader '" ++ l.use ++ "' failed: " ++ msg) ctx'
    | .rejects ctx' msg => .rejected msg ctx'
    | .ok ctx' ret =>
        match ret with
        | .undef => runLoaders rest ctx'
        | v => runLoaders rest { ctx' with content := v }

/-- A loader that is a pure function of `content`: it mutates nothing and
returns `f content` (possibly `undefined` to decline). -/
def pureLoader (u : String) (f : JsValue → JsValue) : Loader :=
  ⟨u, fun ctx => .ok ctx (f ctx.content)⟩

/-- One engine step on `content` for a pure transform: `undefined` leaves
`content` unchanged, any other value replaces it. -/
def applyStep (c : JsValue) (f : JsValue → JsValue) : JsValue :=
  match f c with
  | .undef => c
  | v => v

/-- JS `pkgFile.startsWith(pfx)`, modelled on the character lists
underlying the strings. -/
def strStartsWith (s pfx : String) : Bool :=
  pfx.data.isPrefixOf s.data

/-- JS `pkgFile.substring(n)` (drop the first `n` characters), modelled on
the character lists underlying the strings. -/
def strDropLen (s : String) (n : Nat) : String :=
  ⟨s.data.drop n⟩

/-- POSIX `path.join(a, b)` in the nominal case (no `.`/`..` segments, no
trailing separators) used by the engine. -/
def pathJoin (a b : String) : String :=
  a ++ "/" ++ b

/-- POSIX `path.resolve(cwd, p)` in the nominal cases used by the
engine: an absolute path stays, `.` resolves to the working directory,
and any other relative path is appended to it. -/
def pathResolve (cwd p : String) : String :=
  if strStartsWith p "/" then p
  else if p = "." then cwd
  else cwd ++ "/" ++ p

/-- POSIX `path.relative(base, target)` as the engine calls it: node
resolves both arguments against the working directory — the project
directory, which is where the bundler runs — and at the engine's call
sites the target is already absolute (`path.join(project.dir, …)`) and
lies under the resolved base, so the result is the target stripped of
the resolved base plus separator. -/
def pathRelative (cwd base target : String) : String :=
  if strStartsWith target (pathResolve cwd base ++ "/") then
    strDropLen target ((pathResolve cwd base).length + 1)
  else
    target

/-- A package descriptor (`PkgDesc`): `id`, project-relative directory,
`isRoot` and `clean` flags. -/
structure PkgDesc where
  id : String
  dir : String
  isRoot : Bool
  clean : Bool
deriving DecidableEq, Repr

/-- `stripSourceDir(pkgFile)` of `rules.js`: scan the configured source
directories in order and strip the first matching `source + path.sep`
prefix; return the path unchanged when none matches.  `sources` stands
for `project.sources.asPlatform` with `path.sep = "/"`. -/
def stripSourceDir (sources : List String) (pkgFile : String) : String :=
  match sources with
  | [] => pkgFile
  | source :: rest =>
    let pfx := source ++ "/"
    if strStartsWith pkgFile pfx then
      strDropLen pkgFile pfx.length
    else
      stripSourceDir rest pkgFile

/-- One file-system write performed by the engine: absolute path and
content (`fs.writeFileSync`; `fs.ensureDirSync` has no observable
effect in this model). -/
structure WriteOp where
  path : String
  content : String
deriving DecidableEq, Repr

/-- `writeRuleFile(destPkg, pkgFile, content)` of `rules.js`: strip the
source-directory prefix when the destination package is the root
package, then write under `project.dir/destPkg.dir`. -/
def writeRuleFile (projectDir : String) (sources : List String)
    (destPkg : PkgDesc) (pkgFile : String) (content : String) : WriteOp :=
  let pkgFile := if destPkg.isRoot then stripSourceDir sources pkgFile else pkgFile
  ⟨pathJoin (pathJoin projectDir destPkg.dir) pkgFile, content⟩

/-- The informational diagnostic recorded for one written extra artifact. -/
def artifactLogEntry (prjExtraFile : String) : String × String :=
  ("liferay-npm-bundler", "Rules generated extra artifact: " ++ prjExtraFile)

/-- The `Object.entries(context.extraArtifacts).forEach` loop of
`writeLoadersResult`: entries whose content is loosely `undefined`
(`undefined` or `null`) are skipped; every other entry is written via
`writeRuleFile` and one informational diagnostic is appended. -/
def writeArtifacts (projectDir : String) (sources : List String)
    (srcPkg destPkg : PkgDesc) :
    List (String × JsValue) → List WriteOp × List (String × String)
  | [] => ([], [])
  | (prjExtraFile, v) :: rest =>
    let out := writeArtifacts projectDir sources srcPkg destPkg rest
    match v with
    | .str s =>
        (writeRuleFile projectDir sources destPkg
            (pathRelative projectDir srcPkg.dir
              (pathJoin projectDir prjExtraFile)) s :: out.1,
          artifactLogEntry prjExtraFile :: out.2)
    | _ => out

/-- `writeLoadersResult(srcPkg, destPkg, context)` of `rules.js`: write the
primary file when `context.content != undefined` (loose: `null` counts
as `undefined` and suppresses the write), then write the defined extra
artifacts, appending their diagnostics to the context's log.  Returns
the writes in order and the context with its grown log. -/
def writeLoadersResult (projectDir : String) (sources : List String)
    (srcPkg destPkg : PkgDesc) (ctx : FileContext) :
    List WriteOp × FileContext :=
  let primary : List WriteOp :=
    match ctx.content with
    | .str s =>
        [writeRuleFile projectDir sources destPkg
          (pathRelative projectDir srcPkg.dir
            (pathJoin projectDir ctx.filePath)) s]
    | _ => []
  let arts := writeArtifacts projectDir sources srcPkg destPkg ctx.extraArtifacts
  (primary ++ arts.1, { ctx with log := ctx.log ++ arts.2 })

/-- The observable result of processing one file: the writes performed and
the `report.rulesRun(prjSrcFile, context.log)` call, when one was made. -/
structure FileRunResult where
  writes : List WriteOp
  report : Option (String × List (String × String))
deriving DecidableEq

/-- `processFile(srcPkg, destPkg, prjSrcFile)` of `rules.js`: resolve the
loader chain for the file; when it is empty resolve immediately doing
nothing; otherwise read the file, run the loader pipeline on a fresh
context and write the results.  `loadersForFile` and `readFile` stand
for the external chain resolver and `fs.readFileSync`. -/
def processFile (projectDir : String) (sources : List String)
    (srcPkg destPkg : PkgDesc) (loadersForFile : String → List Loader)
    (readFile : String → String) (prjSrcFile : String) :
    Except String FileRunResult :=
  let loaders := loadersForFile (pathJoin projectDir prjSrcFile)
  if loaders.length = 0 then
    .ok ⟨[], none⟩
  else
    let ctx : FileContext :=
      { content := .str (readFile (pathJoin projectDir prjSrcFile))
        filePath := prjSrcFile
        extraArtifacts := []
        log := [] }
    match runLoaders loaders ctx with
    | .rejected msg _ => .error msg
    | .resolved _ ctx' =>
        let out := writeLoadersResult projectDir sources srcPkg destPkg ctx'
        .ok ⟨out.1, some (prjSrcFile, out.2.log)⟩

/-- Modelled from the spec: the settling of one chunk dispatched by
`runInChunks` (the repository's `runInChunks` helper in
`steps/util.js` is not among the given sources).  Every operation of
the chunk is dispatched, and the chunk settles successfully only when
all of them do; otherwise it rejects with a failing operation's error
(`Promise.all` semantics; in this settled model the first failure in
file order is the one surfaced). -/
def chunkSettle (op : α → Except String Unit) : List α → Except String Unit
  | [] => .ok ()
  | f :: fs =>
    match op f with
    | .error e => .error e
    | .ok () => chunkSettle op fs

/-- The partition of a file list into consecutive chunks of size at most
`n` (and exactly `n` except for the last), as dispatched by
`runInChunks` on an all-success run. -/
def chunksOf (n : Nat) : List α → List (List α)
  | [] => []
  | f :: fs => (f :: fs.take (n - 1)) :: chunksOf n (fs.drop (n - 1))
termination_by l => l.length
decreasing_by simp [List.length_drop]; omega

/-- Modelled from the spec: `runInChunks(files, chunkSize, chunkIndex,
callback)` of `steps/util.js` (not among the given sources), which the
spec describes as partitioning `files` into consecutive groups of size
at most `chunkSize`, dispatching a group only after the previous group
has fully settled, and surfacing a failure once the in-flight group
settles.  The embedding returns the list of chunks actually dispatched
together with the settled overall result; the starting offset is
rendered by passing the not-yet-processed suffix of `files`. -/
def runInChunks (op : α → Except String Unit) (n : Nat) :
    List α → List (List α) × Except String Unit
  | [] => ([], .ok ())
  | f :: fs =>
    let chunk := f :: fs.take (n - 1)
    match chunkSettle op chunk with
    | .error e => ([chunk], .error e)
    | .ok () =>
      let out := runInChunks op n (fs.drop (n - 1))
      (chunk :: out.1, out.2)
termination_by l => l.length
decreasing_by simp [List.length_drop]; omega

/-- The external collaborators consumed by `processPackage` and
`runRules`: the project singleton (`project.dir`, `project.sources`),
the bundler configuration (`config.bundler.getMaxParallelFiles()`),
the loader chain resolver, `fs.readFileSync`, and the `findFiles` /
`getDestDir` helpers of `steps/util.js`. -/
structure BuildEnv where
  projectDir : String
  sources : List String
  maxParallelFiles : Nat
  loadersForFile : String → List Loader
  readFile : String → String
  findFiles : PkgDesc → List String
  getDestDir : PkgDesc → String

/-- The per-file operation `prjSrcFile => processFile(srcPkg, destPkg,
prjSrcFile)` passed by `processPackage` to `runInChunks`, with the
per-file observables erased to the settled outcome. -/
def fileOp (env : BuildEnv) (srcPkg destPkg : PkgDesc) (f : String) :
    Except String Unit :=
  (processFile env.projectDir env.sources srcPkg destPkg
      env.loadersForFile env.readFile f).map fun _ => ()

/-- `processPackage(srcPkg)` of `rules.js`: discover the package's files,
clone the descriptor with the destination directory, and drive
`runInChunks` over the files with the configured maximum of parallel
files.  Returns the dispatched chunks and the settled outcome. -/
def processPackage (env : BuildEnv) (srcPkg : PkgDesc) :
    List (List String) × Except String Unit :=
  let prjSrcFiles := env.findFiles srcPkg
  let destPkg := { srcPkg with dir := env.getDestDir srcPkg }
  runInChunks (fileOp env srcPkg destPkg) env.maxParallelFiles prjSrcFiles

/-- `runRules(rootPkg, depPkgs)` of `rules.js`: keep the packages whose
`clean` flag is false, process each of them (`Promise.all` dispatches
every one), and on overall success emit the single debug diagnostic
`Applied rules to <n> packages`.  Returns the per-package runs, the
settled overall outcome, and the diagnostics emitted at the end. -/
def runRules (env : BuildEnv) (rootPkg : PkgDesc) (depPkgs : List PkgDesc) :
    List (PkgDesc × (List (List String) × Except String Unit)) ×
      Except String Unit × List String :=
  let dirtyPkgs := (rootPkg :: depPkgs).filter fun srcPkg => !srcPkg.clean
  let runs := dirtyPkgs.map fun srcPkg => (srcPkg, processPackage env srcPkg)
  match runs.findSome? (fun r =>
      match r.2.2 with
      | .error e => some e
      | .ok () => none) with
  | some e => (runs, .error e, [])
  | none =>
      (runs, .ok (),
        ["Applied rules to " ++ toString dirtyPkgs.length ++ " packages"])

/-- Splitting `runLoaders` at a chain concatenation: the suffix runs on the
context the prefix resolved with, and a rejection of the prefix is the
rejection of the whole chain. -/
theorem runLoaders_append (pre suf : List Loader) (ctx : FileContext) :
    runLoaders (pre ++ suf) ctx =
      match runLoaders pre ctx with
      | .resolved _ ctx' => runLoaders suf ctx'
      | .rejected msg ctx' => .rejected msg ctx' := by
  induction pre generalizing ctx with
  | nil => rfl
  | cons l rest ih =>
    simp only [List.cons_append, runLoaders]
    cases l.exec ctx with
    | throws ctx' msg => rfl
    | rejects ctx' msg => rfl
    | ok ctx' ret => cases ret <;> exact ih _

/-- A chain of pure loaders resolves with the left fold of `applyStep`
over the transforms, and the final context differs from the initial one
only in `content`. -/
theorem runLoaders_pureChain (ps : List (String × (JsValue → JsValue)))
    (ctx : FileContext) :
    runLoaders (ps.map fun p => pureLoader p.1 p.2) ctx =
      .resolved (ps.foldl (fun c p => applyStep c p.2) ctx.content)
        { ctx with content := ps.foldl (fun c p => applyStep c p.2) ctx.content } := by
  induction ps generalizing ctx with
  | nil => rfl
  | cons p rest ih =>
    simp only [List.map_cons, List.foldl_cons, runLoaders]
    have hex : (pureLoader p.1 p.2).exec ctx = .ok ctx (p.2 ctx.content) := rfl
    cases hfc : p.2 ctx.content with
    | undef =>
        have ha : applyStep ctx.content p.2 = ctx.content := by
          unfold applyStep; rw [hfc]
        rw [hex, hfc, ha]
        exact ih ctx
    | null =>
        have ha : applyStep ctx.content p.2 = .null := by
          unfold applyStep; rw [hfc]
        rw [hex, hfc, ha]
        exact ih { ctx with content := .null }
    | str s =>
        have ha : applyStep ctx.content p.2 = .str s := by
          unfold applyStep; rw [hfc]
        rw [hex, hfc, ha]
        exact ih { ctx with content := .str s }

/-- Appending after a prefix makes `strStartsWith` true. -/
theorem strStartsWith_append (pfx s : String) :
    strStartsWith (pfx ++ s) pfx = true := by
  unfold strStartsWith
  rw [String.data_append, List.isPrefixOf_iff_prefix]
  exact List.prefix_append _ _

/-- Dropping the length of an appended prefix recovers the suffix. -/
theorem strDropLen_append (pfx s : String) :
    strDropLen (pfx ++ s) pfx.length = s := by
  unfold strDropLen
  rw [String.data_append]
  show String.mk ((pfx.data ++ s.data).drop pfx.data.length) = s
  rw [List.drop_left]

/-- Left cancellation for string concatenation. -/
theorem strAppend_left_cancel {a b c : String} (h : a ++ b = a ++ c) :
    b = c := by
  have hd := congrArg String.data h
  rw [String.data_append, String.data_append] at hd
  exact String.ext (List.append_cancel_left hd)

/-- `pathRelative` recovers, for a target lying under the resolved base,
exactly the target's path relative to that base. -/
theorem pathRelative_strips_resolved_base (cwd base rest : String) :
    pathRelative cwd base (pathJoin (pathResolve cwd base) rest) = rest := by
  unfold pathRelative pathJoin
  have h1 : pathResolve cwd base ++ "/" ++ rest =
      (pathResolve cwd base ++ "/") ++ rest := by
    rw [String.append_assoc]
  rw [h1, strStartsWith_append]
  simp only [if_true]
  have h2 : (pathResolve cwd base).length + 1 =
      (pathResolve cwd base ++ "/").length := by
    rw [String.length_append]
    rfl
  rw [h2]
  exact strDropLen_append _ _

/-- `stripSourceDir` on a path matching no configured source prefix. -/
theorem stripSourceDir_no_match (sources : List String) (pkgFile : String)
    (h : ∀ s ∈ sources, strStartsWith pkgFile (s ++ "/") = false) :
    stripSourceDir sources pkgFile = pkgFile := by
  induction sources with
  | nil => rfl
  | cons src rest ih =>
    rw [stripSourceDir]
    simp only [h src (List.mem_cons_self src rest), Bool.false_eq_true, if_false]
    exact ih fun s hs => h s (List.mem_cons_of_mem src hs)

/-- `stripSourceDir` strips exactly the first matching source prefix. -/
theorem stripSourceDir_first_match (pre post : List String)
    (src rest pkgFile : String)
    (hpre : ∀ s ∈ pre, strStartsWith pkgFile (s ++ "/") = false)
    (hfile : pkgFile = src ++ "/" ++ rest) :
    stripSourceDir (pre ++ src :: post) pkgFile = rest := by
  induction pre with
  | nil =>
    subst hfile
    rw [List.nil_append, stripSourceDir]
    have h1 : src ++ "/" ++ rest = (src ++ "/") ++ rest := by
      rw [String.append_assoc]
    rw [h1, strStartsWith_append]
    simp only [if_true]
    exact strDropLen_append (src ++ "/") rest
  | cons s ss ih =>
    rw [List.cons_append, stripSourceDir]
    simp only [hpre s (List.mem_cons_self s ss), Bool.false_eq_true, if_false]
    exact ih fun q hq => hpre q (List.mem_cons_of_mem s hq)

/-- C10: `stripSourceDir` strips at most one source-directory prefix — the
first configured source directory whose prefix matches — never strips
the result again, and returns a path matching no configured source
prefix unchanged. -/
theorem stripSourceDir_at_most_one_strip (sources : List String)
    (pkgFile : String) :
    ((∀ s ∈ sources, strStartsWith pkgFile (s ++ "/") = false) →
      stripSourceDir sources pkgFile = pkgFile) ∧
    (∀ (pre post : List String) (src rest : String),
      sources = pre ++ src :: post →
      (∀ s ∈ pre, strStartsWith pkgFile (s ++ "/") = false) →
      pkgFile = src ++ "/" ++ rest →
      stripSourceDir sources pkgFile = rest) := by
  refine ⟨stripSourceDir_no_match sources pkgFile, ?_⟩
  intro pre post src rest hs hpre hfile
  subst hs
  exact stripSourceDir_first_match pre post src rest pkgFile hpre hfile

/-- C10 witness: with sources `["src", "lib"]`, the path `src/lib/x.js`
is stripped once to `lib/x.js`, which itself starts with the configured
source prefix `lib/` yet is not stripped again. -/
theorem stripSourceDir_at_most_one_strip_witness :
    stripSourceDir ["src", "lib"] "src/lib/x.js" = "lib/x.js" ∧
    strStartsWith "lib/x.js" ("lib" ++ "/") = true := by
  constructor
  · exact (stripSourceDir_at_most_one_strip ["src", "lib"] "src/lib/x.js").2
      [] ["lib"] "src" "lib/x.js" rfl (by intro s hs; cases hs) (by decide)
  · decide

/-- C4: `writeRuleFile` strips the configured source-directory prefix from
the package-relative path of a root destination package before placing
it under the destination directory, and preserves the path unchanged
for a dependency (non-root) destination package. -/
theorem writeRuleFile_root_strips_dep_preserves (projectDir : String)
    (destPkg : PkgDesc) (content : String) :
    (∀ src rest : String, destPkg.isRoot = true →
      writeRuleFile projectDir [src] destPkg (src ++ "/" ++ rest) content =
        ⟨pathJoin (pathJoin projectDir destPkg.dir) rest, content⟩) ∧
    (∀ (sources : List String) (pkgFile : String), destPkg.isRoot = false →
      writeRuleFile projectDir sources destPkg pkgFile content =
        ⟨pathJoin (pathJoin projectDir destPkg.dir) pkgFile, content⟩) := by
  constructor
  · intro src rest hroot
    unfold writeRuleFile
    rw [hroot]
    simp only [if_true]
    have hstrip := stripSourceDir_first_match [] [] src rest
      (src ++ "/" ++ rest) (by intro s hs; cases hs) rfl
    rw [List.nil_append] at hstrip
    rw [hstrip]
  · intro sources pkgFile hdep
    unfold writeRuleFile
    rw [hdep]
    simp only [Bool.false_eq_true, if_false]

/-- C4 witness: with source directories `["src"]` the root-package file
`src/a/b.js` is written at `a/b.js` under the destination directory,
and the dependency-package file `lib/x.js` is written at `lib/x.js`. -/
theorem writeRuleFile_root_strips_dep_preserves_witness :
    writeRuleFile "/prj" ["src"] ⟨"root-pkg", "build", true, false⟩
        ("src" ++ "/" ++ "a/b.js") "out" =
      ⟨pathJoin (pathJoin "/prj" "build") "a/b.js", "out"⟩ ∧
    writeRuleFile "/prj" ["src"] ⟨"dep-pkg", "build/node_modules/d", false, false⟩
        "lib/x.js" "out" =
      ⟨pathJoin (pathJoin "/prj" "build/node_modules/d") "lib/x.js", "out"⟩ := by
  constructor
  · exact (writeRuleFile_root_strips_dep_preserves "/prj"
      ⟨"root-pkg", "build", true, false⟩ "out").1 "src" "a/b.js" rfl
  · exact (writeRuleFile_root_strips_dep_preserves "/prj"
      ⟨"dep-pkg", "build/node_modules/d", false, false⟩ "out").2
      ["src"] "lib/x.js" rfl

/-- C1: a non-empty chain of loaders that are pure transforms of `content`
is processed strictly in order and resolves with the final content,
the left-to-right fold of the transforms over the initial content in
which a step returning `undefined` (no value) leaves `content`
unchanged and any other returned value replaces it. -/
theorem runLoaders_fold_of_transforms
    (ps : List (String × (JsValue → JsValue))) (ctx : FileContext)
    (_hne : ps ≠ []) :
    runLoaders (ps.map fun p => pureLoader p.1 p.2) ctx =
      .resolved (ps.foldl (fun c p => applyStep c p.2) ctx.content)
        { ctx with content := ps.foldl (fun c p => applyStep c p.2) ctx.content } :=
  runLoaders_pureChain ps ctx

/-- C1 witness: the chain `[uppercase, decline]` over content `"hello"`
resolves with `"HELLO"` (the declining loader leaves `content`
unchanged). -/
theorem runLoaders_fold_of_transforms_witness :
    runLoaders
        ([("uppercase", fun _ => JsValue.str "HELLO"),
          ("decline", fun _ => JsValue.undef)].map fun p => pureLoader p.1 p.2)
        ⟨.str "hello", "src/index.js", [], []⟩ =
      .resolved (.str "HELLO") ⟨.str "HELLO", "src/index.js", [], []⟩ :=
  runLoaders_fold_of_transforms
    [("uppercase", fun _ => JsValue.str "HELLO"),
     ("decline", fun _ => JsValue.undef)]
    ⟨.str "hello", "src/index.js", [], []⟩ (List.cons_ne_nil _ _)

/-- C2 (amended): when a loader reached after a successfully resolved
prefix of the chain fails, the loaders after it never execute (the
outcome is independent of them); a synchronous throw surfaces as
`Loader '<use>' failed: <original message>`, while a rejected deferred
result surfaces the original message unannotated. -/
theorem runLoaders_failure_aborts (pre : List Loader) (l : Loader)
    (rest : List Loader) (ctx ctx' : FileContext) (c : JsValue)
    (h : runLoaders pre ctx = .resolved c ctx') :
    (∀ ctxt msg, l.exec ctx' = .throws ctxt msg →
      runLoaders (pre ++ l :: rest) ctx =
        .rejected ("Loader '" ++ l.use ++ "' failed: " ++ msg) ctxt) ∧
    (∀ ctxr msg, l.exec ctx' = .rejects ctxr msg →
      runLoaders (pre ++ l :: rest) ctx = .rejected msg ctxr) := by
  constructor
  · intro ctxt msg hex
    rw [runLoaders_append, h]
    show runLoaders (l :: rest) ctx' = _
    rw [runLoaders, hex]
  · intro ctxr msg hex
    rw [runLoaders_append, h]
    show runLoaders (l :: rest) ctx' = _
    rw [runLoaders, hex]

/-- C2 witness: after one successful loader, a loader that throws `boom`
aborts the chain (a later loader never runs) and the surfaced message
is `Loader 'bad' failed: boom`. -/
theorem runLoaders_failure_aborts_witness :
    runLoaders
        [pureLoader "ok1" (fun _ => .str "a"),
          ⟨"bad", fun ctx => .throws ctx "boom"⟩,
          pureLoader "never" (fun _ => .str "z")]
        ⟨.str "x", "f.js", [], []⟩ =
      .rejected ("Loader '" ++ "bad" ++ "' failed: " ++ "boom")
        ⟨.str "a", "f.js", [], []⟩ :=
  (runLoaders_failure_aborts [pureLoader "ok1" (fun _ => .str "a")]
      ⟨"bad", fun ctx => .throws ctx "boom"⟩
      [pureLoader "never" (fun _ => .str "z")]
      ⟨.str "x", "f.js", [], []⟩ ⟨.str "a", "f.js", [], []⟩ (.str "a")
      rfl).1
    ⟨.str "a", "f.js", [], []⟩ "boom" rfl

/-- C2 counterexample: a loader whose deferred result rejects with `boom`
aborts the chain, but the surfaced error message is the original
`boom`, not `Loader '<use>' failed: boom` as the claim states for
rejected deferred results. -/
theorem runLoaders_reject_unannotated_cex :
    runLoaders [⟨"bad-loader", fun ctx => .rejects ctx "boom"⟩]
        ⟨.str "x", "f.js", [], []⟩ =
      .rejected "boom" ⟨.str "x", "f.js", [], []⟩ ∧
    ("boom" : String) ≠ "Loader 'bad-loader' failed: boom" ∧
    strStartsWith "boom" "Loader '" = false := by
  refine ⟨rfl, by decide, by decide⟩

/-- C3: a file whose resolved loader chain is empty is processed as a
successful no-op: no pipeline run, no write, no extra artifact and no
report, whatever the file's content reads. -/
theorem processFile_emptyChain_noop (projectDir : String)
    (sources : List String) (srcPkg destPkg : PkgDesc)
    (loadersForFile : String → List Loader) (readFile : String → String)
    (prjSrcFile : String)
    (h : loadersForFile (pathJoin projectDir prjSrcFile) = []) :
    processFile projectDir sources srcPkg destPkg loadersForFile readFile
        prjSrcFile =
      .ok ⟨[], none⟩ := by
  unfold processFile
  rw [h]
  rfl

/-- C3 witness: a chain resolver returning the empty chain for the file
`skip.png` makes its processing a successful no-op. -/
theorem processFile_emptyChain_noop_witness :
    processFile "/prj" ["src"] ⟨"root-pkg", ".", true, false⟩
        ⟨"root-pkg", "build", true, false⟩ (fun _ => [])
        (fun _ => "binary") "skip.png" =
      .ok ⟨[], none⟩ :=
  processFile_emptyChain_noop "/prj" ["src"] ⟨"root-pkg", ".", true, false⟩
    ⟨"root-pkg", "build", true, false⟩ (fun _ => []) (fun _ => "binary")
    "skip.png" rfl

/-- The artifact diagnostic message determines the artifact path. -/
theorem artifactLogEntry_inj {a b : String}
    (h : artifactLogEntry a = artifactLogEntry b) : a = b := by
  have h2 := congrArg Prod.snd h
  exact strAppend_left_cancel h2

/-- Closed form of the artifact loop: the writes and the diagnostics are
the filter-maps over the entries whose content is a string; entries
with `undefined` or `null` content contribute nothing. -/
theorem writeArtifacts_eq_filterMap (pd : String) (ss : List String)
    (sp dp : PkgDesc) (entries : List (String × JsValue)) :
    writeArtifacts pd ss sp dp entries =
      (entries.filterMap fun e =>
          match e.2 with
          | .str s => some (writeRuleFile pd ss dp
              (pathRelative pd sp.dir (pathJoin pd e.1)) s)
          | _ => none,
        entries.filterMap fun e =>
          match e.2 with
          | .str _ => some (artifactLogEntry e.1)
          | _ => none) := by
  induction entries with
  | nil => rfl
  | cons e rest ih =>
    obtain ⟨p, v⟩ := e
    cases v <;> simp [writeArtifacts, List.filterMap_cons, ih]

/-- A path absent from the entries never receives an artifact diagnostic. -/
theorem artifactLogEntry_not_mem (entries : List (String × JsValue))
    (p : String) (h : p ∉ entries.map Prod.fst) :
    artifactLogEntry p ∉ entries.filterMap fun e =>
      match e.2 with
      | .str _ => some (artifactLogEntry e.1)
      | _ => none := by
  induction entries with
  | nil => simp
  | cons e rest ih =>
    obtain ⟨q, v⟩ := e
    have hq : p ≠ q := by
      intro he
      exact h (by simp [he])
    have hr : p ∉ rest.map Prod.fst := by
      intro hm
      exact h (by simp [hm])
    cases v with
    | str s =>
        simp only [List.filterMap_cons]
        intro hmem
        rcases List.mem_cons.mp hmem with heq | hmem'
        · exact hq (artifactLogEntry_inj heq)
        · exact ih hr hmem'
    | undef =>
        simp only [List.filterMap_cons]
        exact ih hr
    | null =>
        simp only [List.filterMap_cons]
        exact ih hr

/-- With pairwise-distinct artifact paths, an entry with string content
receives exactly one artifact diagnostic. -/
theorem count_artifactLog (entries : List (String × JsValue)) (p s : String)
    (hnd : (entries.map Prod.fst).Nodup)
    (hmem : (p, JsValue.str s) ∈ entries) :
    (entries.filterMap fun e =>
        match e.2 with
        | .str _ => some (artifactLogEntry e.1)
        | _ => none).count (artifactLogEntry p) = 1 := by
  induction entries with
  | nil => cases hmem
  | cons e rest ih =>
    obtain ⟨q, v⟩ := e
    rw [List.map_cons, List.nodup_cons] at hnd
    rcases List.mem_cons.mp hmem with heq | hmem'
    · cases heq
      simp only [List.filterMap_cons]
      rw [List.count_cons_self,
        List.count_eq_zero.mpr (artifactLogEntry_not_mem rest p hnd.1)]
    · have hq : q ≠ p := by
        intro he
        apply hnd.1
        rw [he]
        have h3 := List.mem_map_of_mem Prod.fst hmem'
        exact h3
      have hlogne : artifactLogEntry p ≠ artifactLogEntry q := by
        intro he
        exact hq (artifactLogEntry_inj he).symm
      cases v with
      | str s2 =>
          simp only [List.filterMap_cons]
          rw [List.count_cons_of_ne hlogne]
          exact ih hnd.2 hmem'
      | undef =>
          simp only [List.filterMap_cons]
          exact ih hnd.2 hmem'
      | null =>
          simp only [List.filterMap_cons]
          exact ih hnd.2 hmem'

/-- An entry with `undefined` content can be erased from the artifact map
without changing any write or diagnostic. -/
theorem writeArtifacts_erase_undef (pd : String) (ss : List String)
    (sp dp : PkgDesc) (entries : List (String × JsValue)) (p : String)
    (hmem : (p, JsValue.undef) ∈ entries) :
    writeArtifacts pd ss sp dp entries =
      writeArtifacts pd ss sp dp (entries.erase (p, JsValue.undef)) := by
  induction entries with
  | nil => cases hmem
  | cons e rest ih =>
    by_cases he : e = (p, JsValue.undef)
    · subst he
      rw [List.erase_cons_head]
      simp [writeArtifacts]
    · have hmem' : (p, JsValue.undef) ∈ rest := by
        rcases List.mem_cons.mp hmem with h1 | h1
        · exact absurd h1.symm he
        · exact h1
      rw [List.erase_cons_tail]
      · obtain ⟨q, v⟩ := e
        cases v <;> simp [writeArtifacts, ih hmem']
      · simp [he]

/-- C5: after the pipeline completes, an `extraArtifacts` entry whose
content is a string is written at its project-relative path resolved
under the destination package and receives exactly one informational
diagnostic tagged `liferay-npm-bundler` with that path, while an entry
whose content is `undefined` produces no write and no diagnostic (it
can be erased without changing the result writer's output). -/
theorem writeArtifacts_defined_vs_undefined (pd : String) (ss : List String)
    (sp dp : PkgDesc) (entries : List (String × JsValue)) (p : String)
    (hnd : (entries.map Prod.fst).Nodup) :
    (∀ s, (p, JsValue.str s) ∈ entries →
      writeRuleFile pd ss dp (pathRelative pd sp.dir (pathJoin pd p)) s ∈
          (writeArtifacts pd ss sp dp entries).1 ∧
      (writeArtifacts pd ss sp dp entries).2.count (artifactLogEntry p) = 1) ∧
    ((p, JsValue.undef) ∈ entries →
      writeArtifacts pd ss sp dp entries =
        writeArtifacts pd ss sp dp (entries.erase (p, JsValue.undef))) := by
  refine ⟨?_, fun hmem => writeArtifacts_erase_undef pd ss sp dp entries p hmem⟩
  intro s hmem
  constructor
  · rw [writeArtifacts_eq_filterMap]
    exact List.mem_filterMap.mpr ⟨(p, .str s), hmem, rfl⟩
  · rw [writeArtifacts_eq_filterMap]
    exact count_artifactLog entries p s hnd hmem

/-- C5 witness: with project directory `/prj`, root source package (dir
`.`), destination directory `build` and the artifact map `{foo.txt:
"bar", skip.txt: undefined}`, the file `/prj/build/foo.txt` is written
with content `bar` and gets exactly one diagnostic, and the `skip.txt`
entry can be erased without changing the output. -/
theorem writeArtifacts_defined_vs_undefined_witness :
    ((⟨"/prj/build/foo.txt", "bar"⟩ : WriteOp) ∈
      (writeArtifacts "/prj" ["src"] ⟨"root-pkg", ".", true, false⟩
        ⟨"root-pkg", "build", true, false⟩
        [("foo.txt", .str "bar"), ("skip.txt", .undef)]).1 ∧
    (writeArtifacts "/prj" ["src"] ⟨"root-pkg", ".", true, false⟩
        ⟨"root-pkg", "build", true, false⟩
        [("foo.txt", .str "bar"), ("skip.txt", .undef)]).2.count
      (artifactLogEntry "foo.txt") = 1) ∧
    writeArtifacts "/prj" ["src"] ⟨"root-pkg", ".", true, false⟩
        ⟨"root-pkg", "build", true, false⟩
        [("foo.txt", .str "bar"), ("skip.txt", .undef)] =
      writeArtifacts "/prj" ["src"] ⟨"root-pkg", ".", true, false⟩
        ⟨"root-pkg", "build", true, false⟩
        ([("foo.txt", .str "bar"), ("skip.txt", .undef)].erase
          ("skip.txt", JsValue.undef)) := by
  constructor
  · have h := (writeArtifacts_defined_vs_undefined "/prj" ["src"]
      ⟨"root-pkg", ".", true, false⟩ ⟨"root-pkg", "build", true, false⟩
      [("foo.txt", .str "bar"), ("skip.txt", .undef)] "foo.txt"
      (by decide)).1 "bar" (by decide)
    have hw : writeRuleFile "/prj" ["src"] ⟨"root-pkg", "build", true, false⟩
        (pathRelative "/prj" "." (pathJoin "/prj" "foo.txt")) "bar" =
        (⟨"/prj/build/foo.txt", "bar"⟩ : WriteOp) := by decide
    exact ⟨hw ▸ h.1, h.2⟩
  · exact (writeArtifacts_defined_vs_undefined "/prj" ["src"]
      ⟨"root-pkg", ".", true, false⟩ ⟨"root-pkg", "build", true, false⟩
      [("foo.txt", .str "bar"), ("skip.txt", .undef)] "skip.txt"
      (by decide)).2 (by decide)

/-- C8: the pipeline engine itself modifies no context field other than
`content` between loader invocations: whenever every loader of the
chain keeps `filePath` fixed and only grows `extraArtifacts` and the
log, any resolved run of the whole chain has the initial `filePath`,
an `extraArtifacts` map containing every initial entry, and a log
extending the initial log. -/
theorem runLoaders_frame (loaders : List Loader) (ctx : FileContext)
    (hl : ∀ l ∈ loaders, ∀ c c' v, l.exec c = .ok c' v →
      c'.filePath = c.filePath ∧ c.extraArtifacts.Sublist c'.extraArtifacts ∧
        c.log <+: c'.log) :
    ∀ c ctxF, runLoaders loaders ctx = .resolved c ctxF →
      ctxF.filePath = ctx.filePath ∧
      ctx.extraArtifacts.Sublist ctxF.extraArtifacts ∧
      ctx.log <+: ctxF.log := by
  induction loaders generalizing ctx with
  | nil =>
    intro c ctxF h
    rw [runLoaders] at h
    cases h
    exact ⟨rfl, List.Sublist.refl _, List.prefix_refl _⟩
  | cons l rest ih =>
    intro c ctxF h
    rw [runLoaders] at h
    cases hex : l.exec ctx with
    | throws ctxt msg =>
        rw [hex] at h
        cases h
    | rejects ctxr msg =>
        rw [hex] at h
        cases h
    | ok ctx' ret =>
        rw [hex] at h
        have hstep := hl l (List.mem_cons_self l rest) ctx ctx' ret hex
        have hlrest : ∀ l2 ∈ rest, ∀ c c' v, l2.exec c = .ok c' v →
            c'.filePath = c.filePath ∧
              c.extraArtifacts.Sublist c'.extraArtifacts ∧ c.log <+: c'.log :=
          fun l2 hl2 => hl l2 (List.mem_cons_of_mem l hl2)
        cases ret with
        | undef =>
            have hrec := ih ctx' hlrest c ctxF h
            exact ⟨hrec.1.trans hstep.1,
              hstep.2.1.trans hrec.2.1,
              hstep.2.2.trans hrec.2.2⟩
        | null =>
            have hrec := ih { ctx' with content := .null } hlrest c ctxF h
            exact ⟨hrec.1.trans hstep.1,
              hstep.2.1.trans hrec.2.1,
              hstep.2.2.trans hrec.2.2⟩
        | str s =>
            have hrec := ih { ctx' with content := .str s } hlrest c ctxF h
            exact ⟨hrec.1.trans hstep.1,
              hstep.2.1.trans hrec.2.1,
              hstep.2.2.trans hrec.2.2⟩

/-- C8 witness: a loader that appends one artifact and one log entry while
replacing `content` yields a final context with the original
`filePath`, the original (empty) artifact map as a sub-map, and the
original (empty) log as a prefix. -/
theorem runLoaders_frame_witness :
    ("f.js" : String) = "f.js" ∧
    List.Sublist ([] : List (String × JsValue))
      [("foo.txt", JsValue.str "bar")] ∧
    ([] : List (String × String)) <+: [("gen", "hi")] := by
  have hframe := runLoaders_frame
    [⟨"gen", fun c => .ok
        { c with
          extraArtifacts := c.extraArtifacts ++ [("foo.txt", JsValue.str "bar")],
          log := c.log ++ [("gen", "hi")] }
        (.str "out")⟩]
    ⟨.str "in", "f.js", [], []⟩
    (by
      intro l hlmem c c' v hexec
      rw [List.mem_singleton] at hlmem
      subst hlmem
      simp only at hexec
      injection hexec with h1 h2
      subst h1
      exact ⟨rfl, List.sublist_append_left _ _, List.prefix_append _ _⟩)
    (.str "out")
    ⟨.str "out", "f.js", [("foo.txt", JsValue.str "bar")], [("gen", "hi")]⟩
    rfl
  exact hframe

/-- Trailing loaders that decline (return `undefined`) leave the folded
content unchanged. -/
theorem foldl_applyStep_undef (qs : List String) (c : JsValue) :
    (qs.map fun v => (v, fun _ => JsValue.undef)).foldl
      (fun c p => applyStep c p.2) c = c := by
  induction qs generalizing c with
  | nil => rfl
  | cons q rest ih =>
    simp only [List.map_cons, List.foldl_cons]
    exact ih c

/-- C9: when the last value-returning loader of a chain returns `null`
(later loaders all returning `undefined`), the pipeline resolves with
`content = null` — `null` replaces the previous content, unlike
`undefined` — and the result writer then performs no primary write
while still writing the defined extra artifacts. -/
theorem runLoaders_null_skips_primary_write (pd : String) (ss : List String)
    (sp dp : PkgDesc) (ps : List (String × (JsValue → JsValue)))
    (u : String) (qs : List String) (ctx : FileContext) :
    runLoaders
        ((ps ++ ((u, fun _ => JsValue.null) : String × (JsValue → JsValue)) ::
            qs.map fun v => (v, fun _ => JsValue.undef)).map
          fun p => pureLoader p.1 p.2) ctx =
      .resolved .null { ctx with content := .null } ∧
    (writeLoadersResult pd ss sp dp { ctx with content := .null }).1 =
      (writeArtifacts pd ss sp dp ctx.extraArtifacts).1 ∧
    (∀ p s, (p, JsValue.str s) ∈ ctx.extraArtifacts →
      writeRuleFile pd ss dp (pathRelative pd sp.dir (pathJoin pd p)) s ∈
        (writeLoadersResult pd ss sp dp { ctx with content := .null }).1) := by
  have hfold : (ps ++ ((u, fun _ => JsValue.null) : String × (JsValue → JsValue)) ::
      qs.map fun v => (v, fun _ => JsValue.undef)).foldl
        (fun c p => applyStep c p.2) ctx.content = .null := by
    rw [List.foldl_append, List.foldl_cons]
    exact foldl_applyStep_undef qs _
  have h1 := runLoaders_pureChain
    (ps ++ ((u, fun _ => JsValue.null) : String × (JsValue → JsValue)) ::
      qs.map fun v => (v, fun _ => JsValue.undef)) ctx
  rw [hfold] at h1
  have h2 : (writeLoadersResult pd ss sp dp { ctx with content := .null }).1 =
      (writeArtifacts pd ss sp dp ctx.extraArtifacts).1 := by
    simp [writeLoadersResult]
  refine ⟨h1, h2, ?_⟩
  intro p s hmem
  rw [h2, writeArtifacts_eq_filterMap]
  exact List.mem_filterMap.mpr ⟨(p, .str s), hmem, rfl⟩

/-- C9 witness: a chain ending in a null-returning loader followed by a
declining loader leaves `content = null`; the writer skips the primary
file and still writes the artifact `foo.txt`. -/
theorem runLoaders_null_skips_primary_write_witness :
    runLoaders
        ((([] : List (String × (JsValue → JsValue))) ++ (("nuller", fun _ => JsValue.null) : String × (JsValue → JsValue)) ::
            ["decl"].map fun v => (v, fun _ => JsValue.undef)).map
          fun p => pureLoader p.1 p.2)
        ⟨.str "x", "f.js", [("foo.txt", JsValue.str "bar")], []⟩ =
      .resolved .null
        ⟨.null, "f.js", [("foo.txt", JsValue.str "bar")], []⟩ ∧
    (writeLoadersResult "/prj" ["src"] ⟨"root-pkg", ".", true, false⟩
        ⟨"root-pkg", "build", true, false⟩
        ⟨.null, "f.js", [("foo.txt", JsValue.str "bar")], []⟩).1 =
      (writeArtifacts "/prj" ["src"] ⟨"root-pkg", ".", true, false⟩
        ⟨"root-pkg", "build", true, false⟩
        [("foo.txt", JsValue.str "bar")]).1 ∧
    writeRuleFile "/prj" ["src"] ⟨"root-pkg", "build", true, false⟩
        (pathRelative "/prj" "." (pathJoin "/prj" "foo.txt")) "bar" ∈
      (writeLoadersResult "/prj" ["src"] ⟨"root-pkg", ".", true, false⟩
        ⟨"root-pkg", "build", true, false⟩
        ⟨.null, "f.js", [("foo.txt", JsValue.str "bar")], []⟩).1 := by
  have h := runLoaders_null_skips_primary_write "/prj" ["src"]
    ⟨"root-pkg", ".", true, false⟩ ⟨"root-pkg", "build", true, false⟩
    [] "nuller" ["decl"]
    ⟨.str "x", "f.js", [("foo.txt", JsValue.str "bar")], []⟩
  exact ⟨h.1, h.2.1, h.2.2 "foo.txt" "bar" (by decide)⟩

/-- Flattening the chunk partition recovers the file list. -/
theorem chunksOf_flatten (n : Nat) (files : List α) :
    (chunksOf n files).flatten = files := by
  induction files using chunksOf.induct n with
  | case1 => simp [chunksOf]
  | case2 f fs ih =>
    rw [chunksOf]
    simp only [List.flatten_cons, ih]
    simp [List.take_append_drop]

/-- With `n ≥ 1`, every chunk of the partition has at most `n` files. -/
theorem chunksOf_length_le (n : Nat) (hn : 1 ≤ n) (files : List α) :
    ∀ c ∈ chunksOf n files, c.length ≤ n := by
  induction files using chunksOf.induct n with
  | case1 =>
    intro c hc
    rw [chunksOf] at hc
    cases hc
  | case2 f fs ih =>
    intro c hc
    rw [chunksOf] at hc
    rcases List.mem_cons.mp hc with heq | hmem
    · subst heq
      have hle := List.length_take_le (n - 1) fs
      simp only [List.length_cons]
      omega
    · exact ih c hmem

/-- The chunks dispatched by `runInChunks` are a prefix of the chunk
partition; on success they are the whole partition; on failure the
last dispatched chunk is the failing one and all dispatched chunks
before it settled successfully. -/
theorem runInChunks_dispatch (op : α → Except String Unit) (n : Nat)
    (files : List α) :
    (runInChunks op n files).1 <+: chunksOf n files ∧
    ((runInChunks op n files).2 = .ok () →
      (runInChunks op n files).1 = chunksOf n files) ∧
    (∀ e, (runInChunks op n files).2 = .error e →
      ∃ pre c, (runInChunks op n files).1 = pre ++ [c] ∧
        (∀ c' ∈ pre, chunkSettle op c' = .ok ()) ∧
        chunkSettle op c = .error e) := by
  induction files using chunksOf.induct n with
  | case1 =>
    rw [runInChunks, chunksOf]
    exact ⟨List.prefix_refl _, fun _ => rfl, fun e he => Except.noConfusion he⟩
  | case2 f fs ih =>
    rw [runInChunks, chunksOf]
    cases hcs : chunkSettle op (f :: fs.take (n - 1)) with
    | error e =>
        simp only [hcs]
        refine ⟨⟨chunksOf n (fs.drop (n - 1)), rfl⟩,
          fun hok => Except.noConfusion hok,
          fun e2 he2 => ⟨[], f :: fs.take (n - 1), rfl, ?_, ?_⟩⟩
        · intro c' hc'
          cases hc'
        · cases he2
          exact hcs
    | ok u =>
        cases u
        simp only [hcs]
        obtain ⟨⟨t, ht⟩, hok, herr⟩ := ih
        refine ⟨⟨t, ?_⟩, fun h2 => ?_, fun e he => ?_⟩
        · show (f :: fs.take (n - 1)) ::
            (runInChunks op n (fs.drop (n - 1))).1 ++ t = _
          rw [List.cons_append, ht]
        · show (f :: fs.take (n - 1)) ::
            (runInChunks op n (fs.drop (n - 1))).1 = _
          rw [hok h2]
        · obtain ⟨pre, c, hsplit, hpre, hc⟩ := herr e he
          refine ⟨(f :: fs.take (n - 1)) :: pre, c, ?_, ?_, hc⟩
          · show (f :: fs.take (n - 1)) ::
              (runInChunks op n (fs.drop (n - 1))).1 = _
            rw [hsplit, List.cons_append]
          · intro c' hc'
            rcases List.mem_cons.mp hc' with heq | hmem
            · rw [heq]
              exact hcs
            · exact hpre c' hmem

/-- C6: for every file list and bound `n ≥ 1`, `runInChunks` partitions
the files into the consecutive chunks of size at most `n` and
dispatches a chunk only after the previous chunk fully settled: the
dispatched chunks are a prefix of the partition, every dispatched file
is attempted, on success every file is attempted exactly once (the
dispatched chunks flatten back to the whole list), and a failure is
surfaced as the error of the last dispatched chunk, all earlier chunks
having settled successfully. -/
theorem runInChunks_bounded_chunks (op : α → Except String Unit) (n : Nat)
    (hn : 1 ≤ n) (files : List α) :
    (∀ c ∈ (runInChunks op n files).1, c.length ≤ n) ∧
    (runInChunks op n files).1 <+: chunksOf n files ∧
    (runInChunks op n files).1.flatten <+: files ∧
    ((runInChunks op n files).2 = .ok () →
      (runInChunks op n files).1.flatten = files) ∧
    (∀ e, (runInChunks op n files).2 = .error e →
      ∃ pre c, (runInChunks op n files).1 = pre ++ [c] ∧
        (∀ c' ∈ pre, chunkSettle op c' = .ok ()) ∧
        chunkSettle op c = .error e) := by
  obtain ⟨hpfx, hok, herr⟩ := runInChunks_dispatch op n files
  refine ⟨?_, hpfx, ?_, ?_, herr⟩
  · intro c hc
    exact chunksOf_length_le n hn files c (hpfx.sublist.subset hc)
  · obtain ⟨t, ht⟩ := hpfx
    exact ⟨t.flatten, by rw [← List.flatten_append, ht, chunksOf_flatten]⟩
  · intro h2
    rw [hok h2, chunksOf_flatten]

/-- C6 witness: five files with bound 2, the operation failing on file 3:
the dispatched chunks are `[1, 2]` then `[3, 4]`, each of size at most
2, and the failure of the second chunk is surfaced after the first
chunk fully settled. -/
theorem runInChunks_bounded_chunks_witness :
    (∀ c ∈ (runInChunks
        (fun k => if k = 3 then Except.error "boom" else Except.ok ())
        2 [1, 2, 3, 4, 5]).1, c.length ≤ 2) ∧
    (runInChunks (fun k => if k = 3 then Except.error "boom" else Except.ok ())
        2 [1, 2, 3, 4, 5]).1 <+: chunksOf 2 [1, 2, 3, 4, 5] ∧
    (runInChunks (fun k => if k = 3 then Except.error "boom" else Except.ok ())
        2 [1, 2, 3, 4, 5]).1.flatten <+: [1, 2, 3, 4, 5] ∧
    ((runInChunks (fun k => if k = 3 then Except.error "boom" else Except.ok ())
        2 [1, 2, 3, 4, 5]).2 = .ok () →
      (runInChunks (fun k => if k = 3 then Except.error "boom" else Except.ok ())
        2 [1, 2, 3, 4, 5]).1.flatten = [1, 2, 3, 4, 5]) ∧
    (∀ e, (runInChunks
        (fun k => if k = 3 then Except.error "boom" else Except.ok ())
        2 [1, 2, 3, 4, 5]).2 = .error e →
      ∃ pre c, (runInChunks
          (fun k => if k = 3 then Except.error "boom" else Except.ok ())
          2 [1, 2, 3, 4, 5]).1 = pre ++ [c] ∧
        (∀ c' ∈ pre, chunkSettle
          (fun k => if k = 3 then Except.error "boom" else Except.ok ())
          c' = .ok ()) ∧
        chunkSettle
          (fun k => if k = 3 then Except.error "boom" else Except.ok ())
          c = .error e) :=
  runInChunks_bounded_chunks
    (fun k => if k = 3 then Except.error "boom" else Except.ok ())
    2 (by decide) [1, 2, 3, 4, 5]

/-- A package run that settled successfully attempted every discovered
file of the package. -/
theorem processPackage_ok_all_attempted (env : BuildEnv) (srcPkg : PkgDesc)
    (h : (processPackage env srcPkg).2 = .ok ()) :
    (processPackage env srcPkg).1.flatten = env.findFiles srcPkg := by
  have heq : processPackage env srcPkg =
      runInChunks (fileOp env srcPkg { srcPkg with dir := env.getDestDir srcPkg })
        env.maxParallelFiles (env.findFiles srcPkg) := rfl
  rw [heq] at h ⊢
  rw [(runInChunks_dispatch _ _ _).2.1 h, chunksOf_flatten]

/-- C7: `runRules` processes exactly the packages whose `clean` flag is
false (each run is the processing of its dirty package), and resolves
successfully only when every dirty package's run settled successfully —
in which case every discovered file of every dirty package was
attempted and the single debug diagnostic counts the dirty packages
processed. -/
theorem runRules_dirty_packages (env : BuildEnv) (rootPkg : PkgDesc)
    (depPkgs : List PkgDesc) :
    (runRules env rootPkg depPkgs).1.map Prod.fst =
      (rootPkg :: depPkgs).filter (fun srcPkg => !srcPkg.clean) ∧
    (∀ r ∈ (runRules env rootPkg depPkgs).1,
      r.2 = processPackage env r.1) ∧
    ((runRules env rootPkg depPkgs).2.1 = .ok () →
      (∀ r ∈ (runRules env rootPkg depPkgs).1,
        r.2.2 = .ok () ∧ r.2.1.flatten = env.findFiles r.1) ∧
      (runRules env rootPkg depPkgs).2.2 =
        ["Applied rules to " ++
          toString ((rootPkg :: depPkgs).filter
            (fun srcPkg => !srcPkg.clean)).length ++ " packages"]) := by
  have hruns : (runRules env rootPkg depPkgs).1 =
      ((rootPkg :: depPkgs).filter fun srcPkg => !srcPkg.clean).map
        fun srcPkg => (srcPkg, processPackage env srcPkg) := by
    simp only [runRules]
    cases (((rootPkg :: depPkgs).filter fun srcPkg => !srcPkg.clean).map
        fun srcPkg => (srcPkg, processPackage env srcPkg)).findSome?
      (fun r => match r.2.2 with
        | .error e => some e
        | .ok () => none) <;> rfl
  have hmem : ∀ r ∈ (runRules env rootPkg depPkgs).1,
      r.2 = processPackage env r.1 := by
    intro r hr
    rw [hruns] at hr
    obtain ⟨p, _hp, hpr⟩ := List.mem_map.mp hr
    rw [← hpr]
  refine ⟨?_, hmem, ?_⟩
  · rw [hruns, List.map_map]
    have hcomp : (Prod.fst ∘ fun srcPkg : PkgDesc =>
        (srcPkg, processPackage env srcPkg)) = fun srcPkg => srcPkg := rfl
    rw [hcomp]
    exact List.map_id _
  · intro hok
    constructor
    · intro r hr
      have hfind : (((rootPkg :: depPkgs).filter fun srcPkg =>
          !srcPkg.clean).map
            fun srcPkg => (srcPkg, processPackage env srcPkg)).findSome?
          (fun r => match r.2.2 with
            | .error e => some e
            | .ok () => none) = none := by
        by_contra hne
        obtain ⟨e, he⟩ := Option.ne_none_iff_exists'.mp hne
        have : (runRules env rootPkg depPkgs).2.1 = .error e := by
          simp only [runRules, he]
        rw [this] at hok
        cases hok
      have hfx := List.findSome?_eq_none_iff.mp hfind r (by rw [← hruns]; exact hr)
      have hr2 := hmem r hr
      cases hre : r.2.2 with
      | error e =>
          rw [hre] at hfx
          cases hfx
      | ok u =>
          cases u
          refine ⟨rfl, ?_⟩
          rw [hr2]
          rw [hr2] at hre
          exact processPackage_ok_all_attempted env r.1 hre
    · have hfind : (((rootPkg :: depPkgs).filter fun srcPkg =>
          !srcPkg.clean).map
            fun srcPkg => (srcPkg, processPackage env srcPkg)).findSome?
          (fun r => match r.2.2 with
            | .error e => some e
            | .ok () => none) = none := by
        by_contra hne
        obtain ⟨e, he⟩ := Option.ne_none_iff_exists'.mp hne
        have : (runRules env rootPkg depPkgs).2.1 = .error e := by
          simp only [runRules, he]
        rw [this] at hok
        cases hok
      simp only [runRules, hfind]

/-- C7 witness: with one clean and two dirty packages (the root and one
dependency) of three discovered files each, exactly the two dirty
packages are processed and the success diagnostic counts them. -/
theorem runRules_dirty_packages_witness :
    (runRules
        ⟨"/prj", ["src"], 2, fun _ => [], fun _ => "",
          fun _ => ["a.js", "b.js", "c.js"], fun _ => "build"⟩
        ⟨"root", ".", true, false⟩
        [⟨"dep-c", "node_modules/c", false, true⟩,
          ⟨"dep-d", "node_modules/d", false, false⟩]).1.map Prod.fst =
      ((⟨"root", ".", true, false⟩ : PkgDesc) ::
          [⟨"dep-c", "node_modules/c", false, true⟩,
            ⟨"dep-d", "node_modules/d", false, false⟩]).filter
        (fun srcPkg => !srcPkg.clean) ∧
    (runRules
        ⟨"/prj", ["src"], 2, fun _ => [], fun _ => "",
          fun _ => ["a.js", "b.js", "c.js"], fun _ => "build"⟩
        ⟨"root", ".", true, false⟩
        [⟨"dep-c", "node_modules/c", false, true⟩,
          ⟨"dep-d", "node_modules/d", false, false⟩]).2.2 =
      ["Applied rules to " ++
        toString (((⟨"root", ".", true, false⟩ : PkgDesc) ::
            [⟨"dep-c", "node_modules/c", false, true⟩,
              ⟨"dep-d", "node_modules/d", false, false⟩]).filter
          (fun srcPkg => !srcPkg.clean)).length ++ " packages"] := by
  have h := runRules_dirty_packages
    ⟨"/prj", ["src"], 2, fun _ => [], fun _ => "",
      fun _ => ["a.js", "b.js", "c.js"], fun _ => "build"⟩
    ⟨"root", ".", true, false⟩
    [⟨"dep-c", "node_modules/c", false, true⟩,
      ⟨"dep-d", "node_modules/d", false, false⟩]
  refine ⟨h.1, (h.2.2 ?_).2⟩
  simp [runRules, processPackage, runInChunks, chunkSettle, fileOp,
    processFile, pathJoin, Except.map, List.findSome?]
